import Mathlib

/-!
Verification of the sparse Game of Life implementation in Organism.h.

The C++ code stores live cells as 64-bit keys in an unordered set.  A key
packs two signed 32-bit coordinates: WW(x, y) puts y (mod 2^32) in the high
32 bits and x (mod 2^32) in the low 32 bits; XX and YY decode a key back to
signed 32-bit coordinates.  Keys are modelled as natural numbers below 2^64
and coordinates as integers, with the 32-bit wrap made explicit.  The
organism state, a single unordered set member in the C++ class, is modelled
as a finite set of keys passed explicitly to every operation; the tick loop,
which visits the live cells in the unspecified order of the hash set, is
modelled as a fold over an enumeration list, and its insensitivity to that
order is proved below.  Definitions come first, then the lemmas and the
claim theorems.
-/

/-- Reduction of an integer modulo 2^32 to an unsigned 32-bit value, as the
cast to a 32-bit field of the 64-bit word does in WW. -/
def toU32 (a : Int) : ℕ := (a % 4294967296).toNat

/-- Sign re-interpretation of the low 32 bits of a natural number, as the C
cast (cell_coord_type) performs in XX and YY. -/
def toS32 (n : ℕ) : Int :=
  if n % 4294967296 < 2147483648 then ((n % 4294967296 : ℕ) : Int)
  else ((n % 4294967296 : ℕ) : Int) - 4294967296

/-- Key encoding: WW(x, y) = ((int64)y << 32) | ((int64)x & 0xFFFFFFFF),
viewed as an unsigned 64-bit value. -/
def WW (x y : Int) : ℕ := toU32 y * 4294967296 + toU32 x

/-- Low-half decode: XX(w) = (int32)w. -/
def XX (w : ℕ) : Int := toS32 w

/-- High-half decode: YY(w) = (int32)((w >> 32) & 0xFFFFFFFF). -/
def YY (w : ℕ) : Int := toS32 (w / 4294967296)

/-- The representable coordinate range of the signed 32-bit type. -/
def InRange (a : Int) : Prop := -2147483648 ≤ a ∧ a < 2147483648

instance (a : Int) : Decidable (InRange a) := by unfold InRange; infer_instance

/-- Membership test on the live-cell set (cells_m.find(w) != cells_m.end()). -/
def is_alive (s : Finset ℕ) (w : ℕ) : Bool := decide (w ∈ s)

/-- Complement membership test (cells_m.find(w) == cells_m.end()). -/
def is_dead (s : Finset ℕ) (w : ℕ) : Bool := decide (w ∉ s)

/-- Number of live neighbours of (x, y): the sum of the eight is_alive
results in the order the source lists them. -/
def get_num_live (s : Finset ℕ) (x y : Int) : ℕ :=
  (is_alive s (WW (x-1) (y-1))).toNat
  + (is_alive s (WW (x-1) y)).toNat
  + (is_alive s (WW (x-1) (y+1))).toNat
  + (is_alive s (WW x (y-1))).toNat
  + (is_alive s (WW x (y+1))).toNat
  + (is_alive s (WW (x+1) (y-1))).toNat
  + (is_alive s (WW (x+1) y)).toNat
  + (is_alive s (WW (x+1) (y+1))).toNat

/-- The dead neighbours of (x, y), written to the output buffer in the fixed
scan order of the source; the returned list length is the returned count n. -/
def get_dead_cells (s : Finset ℕ) (x y : Int) : List ℕ :=
  (if is_dead s (WW (x-1) (y-1)) then [WW (x-1) (y-1)] else [])
  ++ ((if is_dead s (WW (x-1) y) then [WW (x-1) y] else [])
  ++ ((if is_dead s (WW (x-1) (y+1)) then [WW (x-1) (y+1)] else [])
  ++ ((if is_dead s (WW x (y-1)) then [WW x (y-1)] else [])
  ++ ((if is_dead s (WW x (y+1)) then [WW x (y+1)] else [])
  ++ ((if is_dead s (WW (x+1) (y-1)) then [WW (x+1) (y-1)] else [])
  ++ ((if is_dead s (WW (x+1) y) then [WW (x+1) y] else [])
  ++ (if is_dead s (WW (x+1) (y+1)) then [WW (x+1) (y+1)] else [])))))))

/-- The eight neighbour keys of (x, y) in the scan order of the source. -/
def nbrKeys (x y : Int) : List ℕ :=
  [WW (x-1) (y-1), WW (x-1) y, WW (x-1) (y+1), WW x (y-1),
   WW x (y+1), WW (x+1) (y-1), WW (x+1) y, WW (x+1) (y+1)]

/-- Body of the tick loop for one live cell c: insert c into the new set when
its dead-neighbour count is 5 or 6, then insert every dead neighbour whose
live-neighbour count is exactly 3. -/
def tickCell (s : Finset ℕ) (acc : Finset ℕ) (c : ℕ) : Finset ℕ :=
  let zcells := get_dead_cells s (XX c) (YY c)
  let ndead := zcells.length
  let acc1 := if ndead = 5 ∨ ndead = 6 then insert c acc else acc
  zcells.foldl (fun a z => if get_num_live s (XX z) (YY z) = 3 then insert z a else a) acc1

/-- One tick pass visiting the live cells in the order of the list l. -/
def tickList (s : Finset ℕ) (l : List ℕ) : Finset ℕ := l.foldl (tickCell s) ∅

/-- The generation step: run the pass over an enumeration of the live set;
the result replaces the old set. -/
def tick (s : Finset ℕ) : Finset ℕ := tickList s (s.sort (· ≤ ·))

/-- What one live cell contributes to the new set, as a set. -/
def contrib (s : Finset ℕ) (c : ℕ) : Finset ℕ :=
  (if (get_dead_cells s (XX c) (YY c)).length = 5 ∨
      (get_dead_cells s (XX c) (YY c)).length = 6 then {c} else ∅)
  ∪ ((get_dead_cells s (XX c) (YY c)).filter
      (fun z => get_num_live s (XX z) (YY z) = 3)).toFinset

/-- Body of the tick loop with the survival rule written on the
live-neighbour count instead of the dead-neighbour count. -/
def tickRefCell (s : Finset ℕ) (acc : Finset ℕ) (c : ℕ) : Finset ℕ :=
  let zcells := get_dead_cells s (XX c) (YY c)
  let nlive := get_num_live s (XX c) (YY c)
  let acc1 := if nlive = 2 ∨ nlive = 3 then insert c acc else acc
  zcells.foldl (fun a z => if get_num_live s (XX z) (YY z) = 3 then insert z a else a) acc1

/-- The generation step with the direct live-count survival test. -/
def tickRef (s : Finset ℕ) : Finset ℕ := (s.sort (· ≤ ·)).foldl (tickRefCell s) ∅

/-- The eight Moore offsets in the scan order of the source. -/
def offs : List (Int × Int) :=
  [(-1,-1), (-1,0), (-1,1), (0,-1), (0,1), (1,-1), (1,0), (1,1)]

/-- A cell as a coordinate pair, as the source struct Cell. -/
structure Cell where
  x : Int
  y : Int
deriving DecidableEq

/-- Source operator< on Cell: lexicographic by x, then y. -/
def cellLt (lhs rhs : Cell) : Bool :=
  if lhs.x < rhs.x then true
  else if lhs.x > rhs.x then false
  else decide (lhs.y < rhs.y)

/-- Source operator<= on Cell: !(lhs > rhs), that is !(rhs < lhs). -/
def cellLe (lhs rhs : Cell) : Bool := !(cellLt rhs lhs)

/-- The Cell(w) constructor: decode a stored key. -/
def cellOf (w : ℕ) : Cell := ⟨XX w, YY w⟩

/-- Bulk seeding: insert each coordinate key in order into the set, counting
the ones that were not already present. -/
def insert_cells (s : Finset ℕ) (cells : List Cell) : Finset ℕ × ℕ :=
  cells.foldl
    (fun acc c =>
      if WW c.x c.y ∈ acc.1 then acc else (insert (WW c.x c.y) acc.1, acc.2 + 1))
    (s, 0)

/-- Verification output: copy the live set into a vector of Cells and sort
it with the Cell comparison. -/
def get_live_cells (s : Finset ℕ) : List Cell :=
  ((s.sort (· ≤ ·)).map cellOf).mergeSort cellLe

/-- Coordinates strictly inside the representable range, so that every
neighbour coordinate is itself representable and no computation wraps (at
the border the C code would overflow its 32-bit coordinates, which is
undefined behaviour and declared out of scope by the spec). -/
def Interior (a : Int) : Prop := -2147483648 < a ∧ a < 2147483647

instance (a : Int) : Decidable (Interior a) := by unfold Interior; infer_instance

/-!
Lemmas and the claims.
-/

lemma toU32_lt (a : Int) : toU32 a < 4294967296 := by
  unfold toU32
  have h1 : 0 ≤ a % 4294967296 := Int.emod_nonneg a (by norm_num)
  have h2 : a % 4294967296 < 4294967296 := Int.emod_lt_of_pos a (by norm_num)
  omega

lemma ww_lt (x y : Int) : WW x y < 18446744073709551616 := by
  unfold WW
  have hx := toU32_lt x
  have hy := toU32_lt y
  omega

lemma ww_mod (x y : Int) : WW x y % 4294967296 = toU32 x := by
  unfold WW
  have hx := toU32_lt x
  omega

lemma ww_div (x y : Int) : WW x y / 4294967296 = toU32 y := by
  unfold WW
  have hx := toU32_lt x
  omega

lemma toU32_eq_iff (a b : Int) : toU32 a = toU32 b ↔ a % 4294967296 = b % 4294967296 := by
  unfold toU32
  have h1 : 0 ≤ a % 4294967296 := Int.emod_nonneg a (by norm_num)
  have h2 : 0 ≤ b % 4294967296 := Int.emod_nonneg b (by norm_num)
  omega

lemma toS32_toU32 (a : Int) (h : InRange a) : toS32 (toU32 a) = a := by
  obtain ⟨h1, h2⟩ := h
  unfold toS32 toU32
  have e1 : 0 ≤ a % 4294967296 := Int.emod_nonneg a (by norm_num)
  have e2 : a % 4294967296 < 4294967296 := Int.emod_lt_of_pos a (by norm_num)
  rcases le_or_lt 0 a with hc | hc
  · have : a % 4294967296 = a := Int.emod_eq_of_lt hc (by omega)
    split <;> omega
  · have : a % 4294967296 = a + 4294967296 := by omega
    split <;> omega

lemma xx_ww (x y : Int) : XX (WW x y) = toS32 (toU32 x) := by
  unfold XX toS32
  rw [ww_mod x y, Nat.mod_eq_of_lt (toU32_lt x)]

lemma yy_ww (x y : Int) : YY (WW x y) = toS32 (toU32 y) := by
  unfold YY
  rw [ww_div x y]

lemma xx_ww_of_range (x y : Int) (hx : InRange x) : XX (WW x y) = x := by
  rw [xx_ww, toS32_toU32 x hx]

lemma yy_ww_of_range (x y : Int) (hy : InRange y) : YY (WW x y) = y := by
  rw [yy_ww, toS32_toU32 y hy]

/-- C3: over the representable signed 32-bit range, decoding a packed key
recovers exactly the original coordinates, and distinct coordinate pairs
never produce the same key. -/
theorem ww_encode_decode_bijective (x y u v : Int)
    (hx : InRange x) (hy : InRange y) (hu : InRange u) (hv : InRange v) :
    XX (WW x y) = x ∧ YY (WW x y) = y ∧
      ((x, y) ≠ (u, v) → WW x y ≠ WW u v) := by
  refine ⟨xx_ww_of_range x y hx, yy_ww_of_range x y hy, ?_⟩
  intro hne heq
  apply hne
  have e1 : x = u := by
    rw [← xx_ww_of_range x y hx, ← xx_ww_of_range u v hu, heq]
  have e2 : y = v := by
    rw [← yy_ww_of_range x y hy, ← yy_ww_of_range u v hv, heq]
  simp [e1, e2]

/-- Witness for C3 at concrete coordinates. -/
theorem ww_encode_decode_bijective_witness :
    (InRange 5 ∧ InRange (-7) ∧ InRange 3 ∧ InRange 4) ∧
      (XX (WW 5 (-7)) = 5 ∧ YY (WW 5 (-7)) = -7 ∧
        (((5 : Int), (-7 : Int)) ≠ ((3 : Int), (4 : Int)) → WW 5 (-7) ≠ WW 3 4)) :=
  ⟨by refine ⟨?_, ?_, ?_, ?_⟩ <;> constructor <;> decide,
    ww_encode_decode_bijective 5 (-7) 3 4 (by constructor <;> decide)
      (by constructor <;> decide) (by constructor <;> decide)
      (by constructor <;> decide)⟩

lemma if_singleton_append (b : Bool) (a : ℕ) (l : List ℕ) :
    (if b then [a] else []) ++ l = (if b then a :: l else l) := by
  cases b <;> simp

lemma get_dead_cells_eq_filter (s : Finset ℕ) (x y : Int) :
    get_dead_cells s x y = (nbrKeys x y).filter (fun w => is_dead s w) := by
  simp only [get_dead_cells, nbrKeys, List.filter_cons, List.filter_nil,
    if_singleton_append]

lemma is_dead_eq_not_alive (s : Finset ℕ) (w : ℕ) :
    is_dead s w = !(is_alive s w) := by
  simp [is_dead, is_alive]

/-- Positional accounting: each of the eight neighbour slots contributes to
exactly one of the live count and the dead list. -/
lemma num_live_add_dead_length (s : Finset ℕ) (x y : Int) :
    get_num_live s x y + (get_dead_cells s x y).length = 8 := by
  simp only [get_num_live, get_dead_cells, is_dead_eq_not_alive]
  cases is_alive s (WW (x-1) (y-1)) <;>
    cases is_alive s (WW (x-1) y) <;>
    cases is_alive s (WW (x-1) (y+1)) <;>
    cases is_alive s (WW x (y-1)) <;>
    cases is_alive s (WW x (y+1)) <;>
    cases is_alive s (WW (x+1) (y-1)) <;>
    cases is_alive s (WW (x+1) y) <;>
    cases is_alive s (WW (x+1) (y+1)) <;> rfl

/-- C4: for every state and every coordinate, the live-neighbour count plus
the number of dead neighbours returned equals 8. -/
theorem get_num_live_add_card_get_dead_cells (s : Finset ℕ) (x y : Int) :
    get_num_live s x y + (get_dead_cells s x y).length = 8 :=
  num_live_add_dead_length s x y

/-- C9: get_dead_cells never produces more than 8 entries, so the fixed
8-slot buffer in tick is never overrun and every index below the returned
count is a valid read. -/
theorem get_dead_cells_length_le_eight (s : Finset ℕ) (x y : Int) :
    (get_dead_cells s x y).length ≤ 8 := by
  have h := num_live_add_dead_length s x y
  omega

lemma mem_foldl_insert_if (p : ℕ → Prop) [DecidablePred p] :
    ∀ (l : List ℕ) (a : Finset ℕ) (w : ℕ),
      (w ∈ l.foldl (fun a z => if p z then insert z a else a) a) ↔
        w ∈ a ∨ (w ∈ l ∧ p w) := by
  intro l
  induction l with
  | nil => intro a w; simp
  | cons z l ih =>
    intro a w
    simp only [List.foldl_cons, ih, List.mem_cons]
    by_cases hz : p z
    · simp only [if_pos hz, Finset.mem_insert]
      constructor
      · rintro ((rfl | h) | h)
        · exact Or.inr ⟨Or.inl rfl, hz⟩
        · exact Or.inl h
        · exact Or.inr ⟨Or.inr h.1, h.2⟩
      · rintro (h | ⟨(rfl | h), hw⟩)
        · exact Or.inl (Or.inr h)
        · exact Or.inl (Or.inl rfl)
        · exact Or.inr ⟨h, hw⟩
    · simp only [if_neg hz]
      constructor
      · rintro (h | h)
        · exact Or.inl h
        · exact Or.inr ⟨Or.inr h.1, h.2⟩
      · rintro (h | ⟨(rfl | h), hw⟩)
        · exact Or.inl h
        · exact absurd hw hz
        · exact Or.inr ⟨h, hw⟩

lemma mem_contrib (s : Finset ℕ) (c w : ℕ) :
    w ∈ contrib s c ↔
      (w = c ∧ ((get_dead_cells s (XX c) (YY c)).length = 5 ∨
                (get_dead_cells s (XX c) (YY c)).length = 6)) ∨
      (w ∈ get_dead_cells s (XX c) (YY c) ∧ get_num_live s (XX w) (YY w) = 3) := by
  unfold contrib
  by_cases hc : (get_dead_cells s (XX c) (YY c)).length = 5 ∨
      (get_dead_cells s (XX c) (YY c)).length = 6
  · simp [hc]
  · simp [hc]

lemma mem_tickCell (s : Finset ℕ) (acc : Finset ℕ) (c w : ℕ) :
    w ∈ tickCell s acc c ↔ w ∈ acc ∨ w ∈ contrib s c := by
  unfold tickCell
  rw [mem_foldl_insert_if (fun z => get_num_live s (XX z) (YY z) = 3), mem_contrib]
  by_cases hc : (get_dead_cells s (XX c) (YY c)).length = 5 ∨
      (get_dead_cells s (XX c) (YY c)).length = 6
  · simp only [if_pos hc, Finset.mem_insert]
    constructor
    · rintro ((rfl | h) | h)
      · exact Or.inr (Or.inl ⟨rfl, hc⟩)
      · exact Or.inl h
      · exact Or.inr (Or.inr h)
    · rintro (h | (⟨rfl, _⟩ | h))
      · exact Or.inl (Or.inr h)
      · exact Or.inl (Or.inl rfl)
      · exact Or.inr h
  · simp only [if_neg hc]
    constructor
    · rintro (h | h)
      · exact Or.inl h
      · exact Or.inr (Or.inr h)
    · rintro (h | (⟨rfl, hc2⟩ | h))
      · exact Or.inl h
      · exact absurd hc2 hc
      · exact Or.inr h

lemma mem_foldl_tickCell (s : Finset ℕ) :
    ∀ (l : List ℕ) (a : Finset ℕ) (w : ℕ),
      w ∈ l.foldl (tickCell s) a ↔ w ∈ a ∨ ∃ c ∈ l, w ∈ contrib s c := by
  intro l
  induction l with
  | nil => intro a w; simp
  | cons c l ih =>
    intro a w
    simp only [List.foldl_cons, ih, mem_tickCell, List.mem_cons]
    constructor
    · rintro ((h | h) | ⟨d, hd, hw⟩)
      · exact Or.inl h
      · exact Or.inr ⟨c, Or.inl rfl, h⟩
      · exact Or.inr ⟨d, Or.inr hd, hw⟩
    · rintro (h | ⟨d, (rfl | hd), hw⟩)
      · exact Or.inl (Or.inl h)
      · exact Or.inl (Or.inr hw)
      · exact Or.inr ⟨d, hd, hw⟩

lemma mem_tickList (s : Finset ℕ) (l : List ℕ) (w : ℕ) :
    w ∈ tickList s l ↔ ∃ c ∈ l, w ∈ contrib s c := by
  unfold tickList
  rw [mem_foldl_tickCell]
  simp

lemma mem_tick (s : Finset ℕ) (w : ℕ) :
    w ∈ tick s ↔ ∃ c ∈ s, w ∈ contrib s c := by
  unfold tick
  rw [mem_tickList]
  simp [Finset.mem_sort]

lemma tickList_eq_tick_of_toFinset (s : Finset ℕ) (l : List ℕ)
    (h : l.toFinset = s) : tickList s l = tick s := by
  apply Finset.ext
  intro w
  rw [mem_tickList, mem_tick]
  constructor
  · rintro ⟨c, hc, hw⟩
    exact ⟨c, by rw [← h, List.mem_toFinset]; exact hc, hw⟩
  · rintro ⟨c, hc, hw⟩
    exact ⟨c, by rw [← List.mem_toFinset, h]; exact hc, hw⟩

/-- C10: the pass is insensitive to the enumeration of the live set:
visiting the live cells along any list with exactly the live cells as
elements, in any order and with any repetitions, gives the same new set, so
two runs from equal live-cell sets agree. -/
theorem tickList_enum_eq_tick (s : Finset ℕ) (l : List ℕ)
    (h : l.toFinset = s) : tickList s l = tick s :=
  tickList_eq_tick_of_toFinset s l h

lemma dead_count_cond_iff (s : Finset ℕ) (c : ℕ) :
    ((get_dead_cells s (XX c) (YY c)).length = 5 ∨
     (get_dead_cells s (XX c) (YY c)).length = 6) ↔
    (get_num_live s (XX c) (YY c) = 2 ∨ get_num_live s (XX c) (YY c) = 3) := by
  have h := num_live_add_dead_length s (XX c) (YY c)
  omega

lemma tickRefCell_eq_tickCell (s : Finset ℕ) :
    tickRefCell s = tickCell s := by
  funext acc c
  simp only [tickRefCell, tickCell]
  rw [if_congr (dead_count_cond_iff s c).symm rfl rfl]

/-- C2: the implemented survival test on the dead-neighbour count (5 or 6)
computes exactly the same new set as the reference pass that tests for 2 or
3 live neighbours directly. -/
theorem tick_eq_tickRef (s : Finset ℕ) : tick s = tickRef s := by
  unfold tick tickList tickRef
  rw [tickRefCell_eq_tickCell]

/-!
Key arithmetic needed to reason about neighbour relations at key level.
-/

lemma toS32_toU32_emod (a : Int) :
    toS32 (toU32 a) % 4294967296 = a % 4294967296 := by
  unfold toS32 toU32
  have h1 : 0 ≤ a % 4294967296 := Int.emod_nonneg a (by norm_num)
  have h2 : a % 4294967296 < 4294967296 := Int.emod_lt_of_pos a (by norm_num)
  split <;> omega

lemma xx_ww_emod (a b : Int) :
    XX (WW a b) % 4294967296 = a % 4294967296 := by
  rw [xx_ww]; exact toS32_toU32_emod a

lemma yy_ww_emod (a b : Int) :
    YY (WW a b) % 4294967296 = b % 4294967296 := by
  rw [yy_ww]; exact toS32_toU32_emod b

lemma ww_eq_of_emod (a b u v : Int) (h1 : a % 4294967296 = u % 4294967296)
    (h2 : b % 4294967296 = v % 4294967296) : WW a b = WW u v := by
  unfold WW toU32
  rw [h1, h2]

lemma toU32_toS32 (n : ℕ) : toU32 (toS32 n) = n % 4294967296 := by
  unfold toU32 toS32
  have h2 : n % 4294967296 < 4294967296 := Nat.mod_lt n (by norm_num)
  split <;> omega

lemma ww_xx_yy (w : ℕ) (hw : w < 18446744073709551616) :
    WW (XX w) (YY w) = w := by
  unfold WW XX YY
  rw [toU32_toS32, toU32_toS32]
  have h1 : w % 4294967296 < 4294967296 := Nat.mod_lt w (by norm_num)
  have h2 : w / 4294967296 < 4294967296 := by omega
  rw [Nat.mod_eq_of_lt h2]
  omega

lemma nbrKeys_eq_map (x y : Int) :
    nbrKeys x y = offs.map (fun d => WW (x + d.1) (y + d.2)) := by
  simp [nbrKeys, offs, sub_eq_add_neg]

lemma mem_get_dead_cells (s : Finset ℕ) (x y : Int) (w : ℕ) :
    w ∈ get_dead_cells s x y ↔
      (∃ d ∈ offs, w = WW (x + d.1) (y + d.2)) ∧ w ∉ s := by
  rw [get_dead_cells_eq_filter, List.mem_filter, nbrKeys_eq_map]
  simp only [List.mem_map, is_dead, decide_eq_true_eq]
  constructor
  · rintro ⟨⟨d, hd, rfl⟩, hns⟩
    exact ⟨⟨d, hd, rfl⟩, hns⟩
  · rintro ⟨⟨d, hd, rfl⟩, hns⟩
    exact ⟨⟨d, hd, rfl⟩, hns⟩

lemma neg_mem_offs (d : Int × Int) (h : d ∈ offs) : (-d.1, -d.2) ∈ offs := by
  fin_cases h <;> decide

lemma get_num_live_eq_zero_of (s : Finset ℕ) (x y : Int)
    (h : ∀ d ∈ offs, WW (x + d.1) (y + d.2) ∉ s) : get_num_live s x y = 0 := by
  have h1 := h (-1,-1) (by decide)
  have h2 := h (-1,0) (by decide)
  have h3 := h (-1,1) (by decide)
  have h4 := h (0,-1) (by decide)
  have h5 := h (0,1) (by decide)
  have h6 := h (1,-1) (by decide)
  have h7 := h (1,0) (by decide)
  have h8 := h (1,1) (by decide)
  simp only at h1 h2 h3 h4 h5 h6 h7 h8
  simp only [get_num_live, sub_eq_add_neg, is_alive]
  rw [add_zero x] at h5
  rw [add_zero x] at h4
  rw [add_zero y] at h2
  rw [add_zero y] at h7
  simp [h1, h2, h3, h4, h5, h6, h7, h8]

lemma exists_live_nbr (s : Finset ℕ) (x y : Int)
    (h : get_num_live s x y ≠ 0) :
    ∃ d ∈ offs, WW (x + d.1) (y + d.2) ∈ s := by
  by_contra hno
  push_neg at hno
  exact h (get_num_live_eq_zero_of s x y hno)

/-- C1: a key is in the new set after one tick exactly when it was live with
2 or 3 live neighbours (survival) or dead with exactly 3 live neighbours
(birth); no other key appears. -/
theorem tick_mem_iff (s : Finset ℕ) (w : ℕ)
    (hw : w < 18446744073709551616) :
    w ∈ tick s ↔
      ((w ∈ s ∧ (get_num_live s (XX w) (YY w) = 2 ∨
                 get_num_live s (XX w) (YY w) = 3)) ∨
       (w ∉ s ∧ get_num_live s (XX w) (YY w) = 3)) := by
  rw [mem_tick]
  constructor
  · rintro ⟨c, hc, hwc⟩
    rw [mem_contrib] at hwc
    rcases hwc with ⟨rfl, hcond⟩ | ⟨hdead, hn3⟩
    · exact Or.inl ⟨hc, (dead_count_cond_iff s w).mp hcond⟩
    · rw [mem_get_dead_cells] at hdead
      exact Or.inr ⟨hdead.2, hn3⟩
  · rintro (⟨hmem, hcond⟩ | ⟨hdead, hn3⟩)
    · refine ⟨w, hmem, ?_⟩
      rw [mem_contrib]
      exact Or.inl ⟨rfl, (dead_count_cond_iff s w).mpr hcond⟩
    · have hne : get_num_live s (XX w) (YY w) ≠ 0 := by omega
      obtain ⟨d, hd, hc⟩ := exists_live_nbr s (XX w) (YY w) hne
      refine ⟨WW (XX w + d.1) (YY w + d.2), hc, ?_⟩
      rw [mem_contrib]
      refine Or.inr ⟨?_, hn3⟩
      rw [mem_get_dead_cells]
      refine ⟨⟨(-d.1, -d.2), neg_mem_offs d hd, ?_⟩, hdead⟩
      have ex : XX (WW (XX w + d.1) (YY w + d.2)) % 4294967296
          = (XX w + d.1) % 4294967296 := xx_ww_emod _ _
      have ey : YY (WW (XX w + d.1) (YY w + d.2)) % 4294967296
          = (YY w + d.2) % 4294967296 := yy_ww_emod _ _
      have ew : WW (XX (WW (XX w + d.1) (YY w + d.2)) + -d.1)
                   (YY (WW (XX w + d.1) (YY w + d.2)) + -d.2)
          = WW (XX w) (YY w) := by
        apply ww_eq_of_emod <;> omega
      rw [ew, ww_xx_yy w hw]

/-- Witness for C1 at the blinker state and a concrete born key. -/
theorem tick_mem_iff_witness :
    (WW 1 1 < 18446744073709551616) ∧
      (WW 1 1 ∈ tick {WW 0 0, WW 1 0, WW 2 0} ↔
        ((WW 1 1 ∈ ({WW 0 0, WW 1 0, WW 2 0} : Finset ℕ) ∧
            (get_num_live {WW 0 0, WW 1 0, WW 2 0} (XX (WW 1 1)) (YY (WW 1 1)) = 2 ∨
             get_num_live {WW 0 0, WW 1 0, WW 2 0} (XX (WW 1 1)) (YY (WW 1 1)) = 3)) ∨
         (WW 1 1 ∉ ({WW 0 0, WW 1 0, WW 2 0} : Finset ℕ) ∧
            get_num_live {WW 0 0, WW 1 0, WW 2 0} (XX (WW 1 1)) (YY (WW 1 1)) = 3))) :=
  ⟨by decide, tick_mem_iff {WW 0 0, WW 1 0, WW 2 0} (WW 1 1) (by decide)⟩

/-- C6: seeding an empty organism with the horizontal blinker and ticking
once yields the vertical blinker; ticking again restores the original
horizontal set, so the blinker has period 2. -/
theorem blinker_period_two :
    (insert_cells ∅ [⟨0, 0⟩, ⟨1, 0⟩, ⟨2, 0⟩]).1 = {WW 0 0, WW 1 0, WW 2 0} ∧
    tick {WW 0 0, WW 1 0, WW 2 0} = {WW 1 (-1), WW 1 0, WW 1 1} ∧
    tick (tick {WW 0 0, WW 1 0, WW 2 0}) = {WW 0 0, WW 1 0, WW 2 0} := by
  have h1 : tickList {WW 0 0, WW 1 0, WW 2 0} [WW 0 0, WW 1 0, WW 2 0]
      = tick {WW 0 0, WW 1 0, WW 2 0} :=
    tickList_eq_tick_of_toFinset _ _ (by decide)
  have e1 : tick {WW 0 0, WW 1 0, WW 2 0} = {WW 1 (-1), WW 1 0, WW 1 1} := by
    rw [← h1]; decide
  have h2 : tickList {WW 1 (-1), WW 1 0, WW 1 1} [WW 1 (-1), WW 1 0, WW 1 1]
      = tick {WW 1 (-1), WW 1 0, WW 1 1} :=
    tickList_eq_tick_of_toFinset _ _ (by decide)
  have e2 : tick {WW 1 (-1), WW 1 0, WW 1 1} = {WW 0 0, WW 1 0, WW 2 0} := by
    rw [← h2]; decide
  refine ⟨by decide, e1, ?_⟩
  rw [e1, e2]

/-- Witness for C10: a shuffled enumeration of the blinker with a repeated
entry produces the same next generation as the canonical pass. -/
theorem tickList_enum_eq_tick_witness :
    [WW 2 0, WW 0 0, WW 1 0, WW 2 0].toFinset
        = ({WW 0 0, WW 1 0, WW 2 0} : Finset ℕ) ∧
      tickList {WW 0 0, WW 1 0, WW 2 0} [WW 2 0, WW 0 0, WW 1 0, WW 2 0]
        = tick {WW 0 0, WW 1 0, WW 2 0} :=
  ⟨by decide, tickList_enum_eq_tick {WW 0 0, WW 1 0, WW 2 0}
    [WW 2 0, WW 0 0, WW 1 0, WW 2 0] (by decide)⟩

lemma offs_bounds (d : Int × Int) (h : d ∈ offs) :
    -1 ≤ d.1 ∧ d.1 ≤ 1 ∧ -1 ≤ d.2 ∧ d.2 ≤ 1 := by
  fin_cases h <;> norm_num

/-- C5: when no live cell sits on the border of the representable range,
every cell alive after one tick is within Chebyshev distance 1 of some cell
that was alive before; the new population is a finite set by construction. -/
theorem tick_stays_near (s : Finset ℕ)
    (hs : ∀ c ∈ s, Interior (XX c) ∧ Interior (YY c)) :
    ∀ w ∈ tick s, ∃ c ∈ s, |XX w - XX c| ≤ 1 ∧ |YY w - YY c| ≤ 1 := by
  intro w hw
  rw [mem_tick] at hw
  obtain ⟨c, hc, hwc⟩ := hw
  rw [mem_contrib] at hwc
  rcases hwc with ⟨rfl, _⟩ | ⟨hdead, _⟩
  · exact ⟨w, hc, by simp, by simp⟩
  · rw [mem_get_dead_cells] at hdead
    obtain ⟨⟨d, hd, rfl⟩, _⟩ := hdead
    obtain ⟨hxi, hyi⟩ := hs c hc
    obtain ⟨hb1, hb2, hb3, hb4⟩ := offs_bounds d hd
    have hxr : InRange (XX c + d.1) := by
      unfold Interior at hxi; unfold InRange; omega
    have hyr : InRange (YY c + d.2) := by
      unfold Interior at hyi; unfold InRange; omega
    refine ⟨c, hc, ?_, ?_⟩
    · rw [xx_ww_of_range _ _ hxr, abs_le]; omega
    · rw [yy_ww_of_range _ _ hyr, abs_le]; omega

/-- Witness for C5 at the blinker state. -/
theorem tick_stays_near_witness :
    (∀ c ∈ ({WW 0 0, WW 1 0, WW 2 0} : Finset ℕ),
        Interior (XX c) ∧ Interior (YY c)) ∧
      ∀ w ∈ tick {WW 0 0, WW 1 0, WW 2 0},
        ∃ c ∈ ({WW 0 0, WW 1 0, WW 2 0} : Finset ℕ),
          |XX w - XX c| ≤ 1 ∧ |YY w - YY c| ≤ 1 :=
  ⟨by decide, tick_stays_near {WW 0 0, WW 1 0, WW 2 0} (by decide)⟩

/-!
Seeding.
-/

lemma insert_cells_foldl (L : List Cell) :
    ∀ (t : Finset ℕ) (n : ℕ),
      L.foldl
        (fun acc c =>
          if WW c.x c.y ∈ acc.1 then acc
          else (insert (WW c.x c.y) acc.1, acc.2 + 1)) (t, n)
      = (t ∪ (L.map (fun c => WW c.x c.y)).toFinset,
         n + ((L.map (fun c => WW c.x c.y)).toFinset \ t).card) := by
  induction L with
  | nil => intro t n; simp
  | cons c L ih =>
    intro t n
    simp only [List.foldl_cons, List.map_cons, List.toFinset_cons]
    by_cases hc : WW c.x c.y ∈ t
    · rw [if_pos hc, ih]
      have e1 : t ∪ insert (WW c.x c.y) (L.map (fun c => WW c.x c.y)).toFinset
          = t ∪ (L.map (fun c => WW c.x c.y)).toFinset := by
        ext w
        simp only [Finset.mem_union, Finset.mem_insert]
        constructor
        · rintro (h | (rfl | h))
          · exact Or.inl h
          · exact Or.inl hc
          · exact Or.inr h
        · rintro (h | h)
          · exact Or.inl h
          · exact Or.inr (Or.inr h)
      have e2 : insert (WW c.x c.y) (L.map (fun c => WW c.x c.y)).toFinset \ t
          = (L.map (fun c => WW c.x c.y)).toFinset \ t := by
        ext w
        simp only [Finset.mem_sdiff, Finset.mem_insert]
        constructor
        · rintro ⟨rfl | h, hnt⟩
          · exact absurd hc hnt
          · exact ⟨h, hnt⟩
        · rintro ⟨h, hnt⟩
          exact ⟨Or.inr h, hnt⟩
      rw [e1, e2]
    · rw [if_neg hc, ih]
      have e1 : insert (WW c.x c.y) t ∪ (L.map (fun c => WW c.x c.y)).toFinset
          = t ∪ insert (WW c.x c.y) (L.map (fun c => WW c.x c.y)).toFinset := by
        ext w
        simp only [Finset.mem_union, Finset.mem_insert]
        tauto
      have e2 : (insert (WW c.x c.y) (L.map (fun c => WW c.x c.y)).toFinset \ t).card
          = ((L.map (fun c => WW c.x c.y)).toFinset \ insert (WW c.x c.y) t).card + 1 := by
        set K := (L.map (fun c => WW c.x c.y)).toFinset with hK
        set k := WW c.x c.y with hk
        have d1 : insert k K \ t = insert k (K \ t) := by
          ext w
          simp only [Finset.mem_sdiff, Finset.mem_insert]
          constructor
          · rintro ⟨rfl | h, hnt⟩
            · exact Or.inl rfl
            · exact Or.inr ⟨h, hnt⟩
          · rintro (rfl | ⟨h, hnt⟩)
            · exact ⟨Or.inl rfl, hc⟩
            · exact ⟨Or.inr h, hnt⟩
        have d2 : K \ insert k t = (K \ t).erase k := by
          ext w
          simp only [Finset.mem_sdiff, Finset.mem_insert, Finset.mem_erase]
          tauto
        rw [d1, d2]
        by_cases hmem : k ∈ K \ t
        · rw [Finset.insert_eq_self.mpr hmem, Finset.card_erase_of_mem hmem]
          have : 0 < (K \ t).card := Finset.card_pos.mpr ⟨k, hmem⟩
          omega
        · rw [Finset.card_insert_of_not_mem hmem,
            Finset.erase_eq_of_not_mem (by exact fun h => hmem h)]
      rw [e1, e2]
      have : ∀ m : ℕ, n + 1 + m = n + (m + 1) := by omega
      rw [this]

lemma insert_cells_eq (s : Finset ℕ) (L : List Cell) :
    insert_cells s L
      = (s ∪ (L.map (fun c => WW c.x c.y)).toFinset,
         ((L.map (fun c => WW c.x c.y)).toFinset \ s).card) := by
  unfold insert_cells
  rw [insert_cells_foldl L s 0, Nat.zero_add]

/-- C7: re-running the same insertion returns the same set and reports 0
added, and the reported count is exactly the number of distinct input
coordinates whose key was not already present: duplicates in the input and
already-live coordinates contribute nothing. -/
theorem insert_cells_idempotent_count (s : Finset ℕ) (L : List Cell)
    (hL : ∀ c ∈ L, InRange c.x ∧ InRange c.y) :
    insert_cells (insert_cells s L).1 L = ((insert_cells s L).1, 0) ∧
      (insert_cells s L).2
        = (L.toFinset.filter (fun c => WW c.x c.y ∉ s)).card := by
  constructor
  · rw [insert_cells_eq, insert_cells_eq]
    have e1 : s ∪ (L.map (fun c => WW c.x c.y)).toFinset
          ∪ (L.map (fun c => WW c.x c.y)).toFinset
        = s ∪ (L.map (fun c => WW c.x c.y)).toFinset := by
      rw [Finset.union_assoc, Finset.union_self]
    have e2 : (L.map (fun c => WW c.x c.y)).toFinset
          \ (s ∪ (L.map (fun c => WW c.x c.y)).toFinset) = ∅ := by
      rw [Finset.sdiff_eq_empty_iff_subset]
      exact Finset.subset_union_right
    rw [e1, e2, Finset.card_empty]
  · rw [insert_cells_eq]
    have hmap : (L.map (fun c => WW c.x c.y)).toFinset
        = L.toFinset.image (fun c => WW c.x c.y) := by
      ext w
      simp [List.mem_map]
    rw [hmap, Finset.sdiff_eq_filter, Finset.filter_image]
    apply Finset.card_image_of_injOn
    intro a ha b hb heq
    simp only at heq
    simp only [Finset.coe_filter, Set.mem_setOf_eq, List.mem_toFinset] at ha hb
    obtain ⟨hax, hay⟩ := hL a ha.1
    obtain ⟨hbx, hby⟩ := hL b hb.1
    have e1 : a.x = b.x := by
      rw [← xx_ww_of_range a.x a.y hax, heq, xx_ww_of_range b.x b.y hbx]
    have e2 : a.y = b.y := by
      rw [← yy_ww_of_range a.x a.y hay, heq, yy_ww_of_range b.x b.y hby]
    cases a
    cases b
    simp_all

/-- Witness for C7: an input list with a duplicate and an already-live
coordinate adds exactly one new cell, and repeating the call adds zero. -/
theorem insert_cells_idempotent_count_witness :
    (∀ c ∈ ([⟨0, 0⟩, ⟨0, 0⟩, ⟨1, 2⟩] : List Cell), InRange c.x ∧ InRange c.y) ∧
      (insert_cells (insert_cells {WW 1 2} [⟨0, 0⟩, ⟨0, 0⟩, ⟨1, 2⟩]).1
            [⟨0, 0⟩, ⟨0, 0⟩, ⟨1, 2⟩]
          = ((insert_cells {WW 1 2} [⟨0, 0⟩, ⟨0, 0⟩, ⟨1, 2⟩]).1, 0) ∧
        (insert_cells {WW 1 2} [⟨0, 0⟩, ⟨0, 0⟩, ⟨1, 2⟩]).2
          = ((([⟨0, 0⟩, ⟨0, 0⟩, ⟨1, 2⟩] : List Cell)).toFinset.filter
              (fun c => WW c.x c.y ∉ ({WW 1 2} : Finset ℕ))).card) :=
  ⟨by decide, insert_cells_idempotent_count {WW 1 2}
    [⟨0, 0⟩, ⟨0, 0⟩, ⟨1, 2⟩] (by decide)⟩

/-!
Sorted verification output.
-/

lemma cellLt_iff (a b : Cell) :
    cellLt a b = true ↔ (a.x < b.x ∨ (a.x = b.x ∧ a.y < b.y)) := by
  unfold cellLt
  split_ifs with h1 h2
  · simp only [true_iff]
    omega
  · simp only [false_iff]
    omega
  · simp only [decide_eq_true_eq]
    omega

lemma cellLe_iff_not_lt (a b : Cell) :
    cellLe a b = true ↔ ¬(cellLt b a = true) := by
  unfold cellLe
  cases cellLt b a <;> simp

lemma cellLe_trans (a b c : Cell) (h1 : cellLe a b = true)
    (h2 : cellLe b c = true) : cellLe a c = true := by
  rw [cellLe_iff_not_lt] at h1 h2 ⊢
  rw [cellLt_iff] at h1 h2 ⊢
  omega

lemma cellLe_total (a b : Cell) : cellLe a b || cellLe b a := by
  rw [Bool.or_eq_true, cellLe_iff_not_lt, cellLe_iff_not_lt,
    cellLt_iff, cellLt_iff]
  omega

lemma cellLt_of_le_ne (a b : Cell) (h1 : cellLe a b = true) (h2 : a ≠ b) :
    cellLt a b = true := by
  rw [cellLe_iff_not_lt, cellLt_iff] at h1
  rw [cellLt_iff]
  have h3 : ¬(a.x = b.x ∧ a.y = b.y) := by
    rintro ⟨u, v⟩
    apply h2
    cases a
    cases b
    simp_all
  omega

/-- C8: the verification output lists every live cell exactly once, in
strictly increasing lexicographic order by x then y, and its length equals
the live-cell count. -/
theorem get_live_cells_sorted_complete (s : Finset ℕ)
    (hs : ∀ w ∈ s, w < 18446744073709551616) :
    List.Pairwise (fun a b => cellLt a b = true) (get_live_cells s) ∧
    (get_live_cells s).Nodup ∧
    (get_live_cells s).length = s.card ∧
    (∀ a : Cell, a ∈ get_live_cells s ↔ ∃ w ∈ s, cellOf w = a) := by
  have hperm : (get_live_cells s).Perm ((s.sort (· ≤ ·)).map cellOf) :=
    List.mergeSort_perm _ _
  have hsortnd : (s.sort (· ≤ ·)).Nodup := Finset.sort_nodup _ _
  have hinj : ∀ x ∈ s.sort (· ≤ ·), ∀ y ∈ s.sort (· ≤ ·),
      cellOf x = cellOf y → x = y := by
    intro x hx y hy hxy
    have hxs : x ∈ s := (Finset.mem_sort _).mp hx
    have hys : y ∈ s := (Finset.mem_sort _).mp hy
    have e1 : XX x = XX y := congrArg Cell.x hxy
    have e2 : YY y = YY y := rfl
    have e3 : YY x = YY y := congrArg Cell.y hxy
    rw [← ww_xx_yy x (hs x hxs), ← ww_xx_yy y (hs y hys), e1, e3]
  have hmapnd : ((s.sort (· ≤ ·)).map cellOf).Nodup :=
    List.Nodup.map_on hinj hsortnd
  have hnd : (get_live_cells s).Nodup := hperm.symm.nodup hmapnd
  have hle : List.Pairwise (fun a b => cellLe a b = true) (get_live_cells s) :=
    List.sorted_mergeSort (fun a b c => cellLe_trans a b c) cellLe_total _
  have hlt : List.Pairwise (fun a b => cellLt a b = true) (get_live_cells s) :=
    List.Pairwise.imp₂ (fun a b h1 h2 => cellLt_of_le_ne a b h1 h2) hle hnd
  refine ⟨hlt, hnd, ?_, ?_⟩
  · unfold get_live_cells
    rw [List.length_mergeSort, List.length_map, Finset.length_sort]
  · intro a
    unfold get_live_cells
    rw [List.mem_mergeSort, List.mem_map]
    constructor
    · rintro ⟨w, hw, rfl⟩
      exact ⟨w, (Finset.mem_sort _).mp hw, rfl⟩
    · rintro ⟨w, hw, rfl⟩
      exact ⟨w, (Finset.mem_sort _).mpr hw, rfl⟩

/-- Witness for C8 at a concrete three-cell state. -/
theorem get_live_cells_sorted_complete_witness :
    (∀ w ∈ ({WW 1 2, WW 0 5, WW 1 0} : Finset ℕ), w < 18446744073709551616) ∧
      (List.Pairwise (fun a b => cellLt a b = true)
          (get_live_cells {WW 1 2, WW 0 5, WW 1 0}) ∧
       (get_live_cells {WW 1 2, WW 0 5, WW 1 0}).Nodup ∧
       (get_live_cells {WW 1 2, WW 0 5, WW 1 0}).length
          = ({WW 1 2, WW 0 5, WW 1 0} : Finset ℕ).card ∧
       (∀ a : Cell, a ∈ get_live_cells {WW 1 2, WW 0 5, WW 1 0} ↔
          ∃ w ∈ ({WW 1 2, WW 0 5, WW 1 0} : Finset ℕ), cellOf w = a)) :=
  ⟨by decide, get_live_cells_sorted_complete {WW 1 2, WW 0 5, WW 1 0} (by decide)⟩
